import Mathlib

/-!
Verification development for the `nfa` repository (`src/nfa/nfa.py`).

The Python class `NFA` stores
  * `transitions` : a list (later: a set) of triples `(from-state, symbol, to-state)`,
    built by expanding each constructor entry `(from, symbols, to)` one transition
    per character of `symbols`;
  * `q0` : the start state;
  * `F` : the accept states (a Python `list` or `set`, depending on the caller —
    we record which with the boolean field `FisSet`, since `to_dfa` calls `F.add`
    which raises `AttributeError` on a list).

States and symbols are Python strings / characters; we embed states as `String`
and symbols as `Char`.  Python `set(...)` conversions are embedded as `pyDedup`
(first-occurrence deduplication; Python set iteration order is unspecified, we
use first-occurrence order as the canonical choice).  Python `sorted(...)` is
embedded as insertion sort over code-point lexicographic order, matching
the string / character ordering of Python.

All recursive procedures of the source that are not structurally recursive
(`accept`, `ε_elimination`, `to_dfa`, `from_re`) are embedded with an explicit
fuel parameter and return `none` when the fuel runs out; `none` for every fuel
is how non-termination of the Python original shows up in the model.
-/

namespace NfaPy

/-- Deduplication keeping first occurrences: the embedding of Python `set(xs)`
(with first-occurrence iteration order as the canonical order choice). -/
def pyDedupAux {α : Type} [DecidableEq α] (seen : List α) : List α → List α
  | [] => []
  | a :: as => if a ∈ seen then pyDedupAux seen as else a :: pyDedupAux (a :: seen) as

/-- Python `set(xs)` listed in first-occurrence order. -/
def pyDedup {α : Type} [DecidableEq α] (xs : List α) : List α := pyDedupAux [] xs

/-- Boolean `≤` on characters by code point (Python character comparison). -/
def charLeB (c d : Char) : Bool := Nat.ble c.toNat d.toNat

/-- Boolean `<` on characters by code point. -/
def charLtB (c d : Char) : Bool := Nat.blt c.toNat d.toNat

/-- Lexicographic `≤` on lists of characters (Python string comparison). -/
def lexLeB : List Char → List Char → Bool
  | [], _ => true
  | _ :: _, [] => false
  | a :: as, b :: bs =>
    if charLtB a b then true else if charLtB b a then false else lexLeB as bs

/-- Python `≤` on strings. -/
def strLeB (a b : String) : Bool := lexLeB a.data b.data

/-- Insert into a sorted list (helper of the embedding of Python `sorted`). -/
def insSorted {α : Type} (le : α → α → Bool) (a : α) : List α → List α
  | [] => [a]
  | x :: xs => if le a x then a :: x :: xs else x :: insSorted le a xs

/-- Insertion sort: the embedding of Python `sorted(xs)`. -/
def pySort {α : Type} (le : α → α → Bool) : List α → List α
  | [] => []
  | a :: as => insSorted le a (pySort le as)

/-- A single expanded transition `(from-state, symbol, to-state)`. -/
abbrev Tr : Type := String × Char × String

/-- The 5-tuple data of the Python `NFA` object (state set and alphabet are
derived, as in the source).  `FisSet` records whether the Python attribute `F`
holds a `set` (supports `.add`) or a `list`. -/
structure NFA : Type where
  transitions : List Tr
  q0 : String
  F : List String
  FisSet : Bool
  deriving DecidableEq

/-- Embedding of `NFA.__init__(transitions, F=None, q0=None)`.

`self.transitions = [(i[0], char, i[2]) for i in set(transitions) for char in i[1]]`;
`self.q0 = q0 or transitions[0][0]`; `self.F = F or set([transitions[-1][2]])`.
Note Python truthiness: an explicitly empty `F` (or empty-string `q0`) falls back
to the default, and the default `F` is a fresh `set`.  `FsetArg` records the
Python type (set vs list) of a supplied `F` argument. -/
def mkNFA (ts : List (String × String × String)) (Farg : Option (List String))
    (FsetArg : Bool) (q0arg : Option String) : NFA :=
  { transitions :=
      (pyDedup ts).flatMap (fun e => e.2.1.data.map (fun c => (e.1, c, e.2.2)))
    q0 :=
      match q0arg with
      | none => (ts.headD ("", "", "")).1
      | some s => if s = "" then (ts.headD ("", "", "")).1 else s
    F :=
      match Farg with
      | none => [(ts.getLastD ("", "", "")).2.2]
      | some l => if l = [] then [(ts.getLastD ("", "", "")).2.2] else l
    FisSet :=
      match Farg with
      | none => true
      | some l => if l = [] then true else FsetArg }

/-- Embedding of `NFA.Σ()`: all non-epsilon symbols of the transition relation. -/
def NFA.sigmaList (A : NFA) : List Char :=
  pyDedup (A.transitions.filterMap (fun t => if t.2.1 ≠ 'ε' then some t.2.1 else none))

/-- Embedding of `NFA.Q()`: all states occurring as transition endpoints. -/
def NFA.Qlist (A : NFA) : List String :=
  pyDedup (A.transitions.map (·.1) ++ A.transitions.map (·.2.2))

/-- Embedding of `NFA.δ(current, input)`: the sorted targets of the transitions
from `current` labelled `input` (calling with `input = 'ε'` is also how the
`input=None` epsilon branch of the source is reached: both filter on `'ε'`). -/
def NFA.δ (A : NFA) (current : String) (input : Char) : List String :=
  pySort strLeB
    ((A.transitions.filter (fun t => t.1 = current ∧ t.2.1 = input)).map (·.2.2))

/-- Sequential nondeterministic-OR over continuations, as the `for n in ...:
if self.accept(...): return True` loops of `NFA.accept`: an earlier
non-returning branch (`none`) makes the whole call non-returning. -/
def anyAcceptM (f : String → Option Bool) : List String → Option Bool
  | [] => some false
  | n :: ns =>
    match f n with
    | none => none
    | some true => some true
    | some false => anyAcceptM f ns

/-- Embedding of `NFA.accept(input, state)` with explicit fuel; `none` models
a call that has not returned within `fuel` nested calls.  The Python
`try/except KeyError` around `self.δ` is dead code (a list comprehension cannot
raise `KeyError`) and is not represented; likewise the defaulting
`state = state or self.q0` only matters for the top-level call (modelled by
passing `q0` explicitly) — its redirection of an empty-string state name to
the start state is not modelled, and no automaton in this development uses
the empty string as a state. -/
def acceptFuel (A : NFA) : Nat → List Char → String → Option Bool
  | 0, _, _ => none
  | fuel + 1, input, state =>
    match anyAcceptM (fun n => acceptFuel A fuel input n) (A.δ state 'ε') with
    | none => none
    | some true => some true
    | some false =>
      match input with
      | [] => some (decide (state ∈ A.F))
      | c :: rest => anyAcceptM (fun n => acceptFuel A fuel rest n) (A.δ state c)

/-- Acceptance from the start state, as a relation between an input and the
boolean the Python `accept` returns (for some sufficient recursion budget). -/
def acceptR (A : NFA) (input : List Char) (b : Bool) : Prop :=
  ∃ fuel, acceptFuel A fuel input A.q0 = some b

/-- Position of `s` in `l` (the index `enumerate` pairs it with in `rename`). -/
def idxOf (s : String) : List String → Nat
  | [] => 0
  | x :: xs => if x = s then 0 else idxOf s xs + 1

/-- The dictionary `ids = {s: str(i) for (i, s) in enumerate(sorted(list(self.Q()))))}`
built by `NFA.rename` (looking up a missing key is a Python `KeyError`; the
embedding returns the out-of-range index `str(len(Q))` instead, which never
matters for states of the automaton). -/
def renameIds (A : NFA) (s : String) : String := Nat.repr (idxOf s (pySort strLeB A.Qlist))

/-- Embedding of `NFA.rename()`: apply `ids` to transitions, `F` and `q0`.
The Python result stores `F` as a list. -/
def NFA.rename (A : NFA) : NFA :=
  { transitions := A.transitions.map (fun t => (renameIds A t.1, t.2.1, renameIds A t.2.2))
    q0 := renameIds A A.q0
    F := A.F.map (renameIds A)
    FisSet := false }

/-- One merge of the while-loop body of `ε_elimination` for the epsilon transition
`t = (us, ε, them)`: remove `t`, rewrite `them` to `us` at both transition
endpoints (each rewrite is a Python `set(...)` construction), update `q0`,
convert `F` to a set and move the acceptance of `them` to `us`. -/
def εMerge (A : NFA) (t : Tr) : NFA :=
  let us := t.1
  let them := t.2.2
  let T1 := A.transitions.erase t
  let T2 := pyDedup (T1.map (fun s => (if s.1 = them then us else s.1, s.2.1, s.2.2)))
  let T3 := pyDedup (T2.map (fun s => (s.1, s.2.1, if s.2.2 = them then us else s.2.2)))
  let F0 := pyDedup A.F
  { transitions := T3
    q0 := if A.q0 = them then us else A.q0
    F := if them ∈ F0 then
        (let F1 := F0.filter (fun f => f ≠ them)
         if us ∈ F1 then F1 else F1 ++ [us])
      else F0
    FisSet := true }

/-- Embedding of `NFA.ε_elimination()`: repeatedly merge along the first
listed epsilon transition until none remains.  Fuel bounds the number of
while-iterations; each iteration strictly shrinks the transition set. -/
def εElimFuel : Nat → NFA → Option NFA
  | 0, _ => none
  | fuel + 1, A =>
    match A.transitions.filter (fun t => t.2.1 = 'ε') with
    | [] => some A
    | t :: _ => εElimFuel fuel (εMerge A t)

/-- The composite-state name `"{" + ",".join(states) + "}"` used by `to_dfa`
(and, for two states, the `"{%s,%s}"` names used by `intersection`). -/
def composName (states : List String) : String :=
  "\x7b" ++ String.intercalate (",") states ++ "\x7d"

/-- Inner loop of the scan in `to_dfa`: first symbol `i` with more than one
transition from `q`. -/
def findBadPairAux (A : NFA) (q : String) : List Char → Option (String × Char)
  | [] => none
  | i :: is => if (A.δ q i).length > 1 then some (q, i) else findBadPairAux A q is

/-- Outer loop of the scan in `to_dfa` over `Q() × Σ()`: first (state, symbol) pair
with more than one transition. -/
def findBadPair (A : NFA) : List String → Option (String × Char)
  | [] => none
  | q :: qs =>
    match findBadPairAux A q A.sigmaList with
    | some p => some p
    | none => findBadPair A qs

/-- One body of the composite-state collapse in `to_dfa`, for the nondeterministic
pair `(q, i)`: add from-composite copies of the member state transitions,
redirect `(q, i)` to the composite, turn composite-to-member transitions into
self-loops, and copy acceptance (each rewrite is a Python `set(...)`
construction).  `Except.error` models the `AttributeError` that `self.F.add`
raises when `F` is a Python list. -/
def toDfaStep (A2 : NFA) (q : String) (i : Char) : Except String NFA :=
  let states := A2.δ q i
  let state := composName states
  let Tu := pyDedup (A2.transitions ++ A2.transitions.map
      (fun t => (if t.1 ∈ states then state else t.1, t.2.1, t.2.2)))
  let T2 := pyDedup (Tu.map
      (fun t => (t.1, t.2.1, if t.1 = q ∧ t.2.1 = i then state else t.2.2)))
  let T3 := pyDedup (T2.map
      (fun t => (t.1, t.2.1, if t.2.2 ∈ states ∧ t.1 = state then state else t.2.2)))
  if states.any (fun s => s ∈ A2.F) then
    if A2.FisSet then
      Except.ok
        { transitions := T3
          q0 := A2.q0
          F := if state ∈ A2.F then A2.F else A2.F ++ [state]
          FisSet := true }
    else Except.error ("AttributeError: list object has no attribute add")
  else Except.ok { transitions := T3, q0 := A2.q0, F := A2.F, FisSet := A2.FisSet }

/-- Embedding of `NFA.to_dfa()`: eliminate epsilons, convert the transition
list to a set, then repeatedly collapse the first nondeterministic
(state, symbol) pair into a composite state and restart (`return
self.to_dfa()`); `none` models running out of fuel. -/
def toDfaFuel : Nat → NFA → Option (Except String NFA)
  | 0, _ => none
  | fuel + 1, A =>
    match εElimFuel (A.transitions.length + 1) A with
    | none => none
    | some A1 =>
      let A2 : NFA := { A1 with transitions := pyDedup A1.transitions }
      match findBadPair A2 A2.Qlist with
      | none => some (Except.ok A2)
      | some (q, i) =>
        match toDfaStep A2 q i with
        | Except.error e => some (Except.error e)
        | Except.ok A3 => toDfaFuel fuel A3

/-- Embedding of the classmethod `NFA.intersection(a, b)`: pair each transition
of one automaton with every state of the other (the other component stays
put), then prune reflexive transitions that are not the unique transition for
their (state, symbol) pair.  The `F` argument is a Python set here. -/
def NFA.intersection (a b : NFA) : NFA :=
  let ts1 := a.transitions.flatMap (fun t =>
      b.Qlist.map (fun bq =>
        (composName [t.1, bq], String.singleton t.2.1, composName [t.2.2, bq])))
  let ts2 := b.transitions.flatMap (fun t =>
      a.Qlist.map (fun aq =>
        (composName [aq, t.1], String.singleton t.2.1, composName [aq, t.2.2])))
  let F := pyDedup (a.F.flatMap (fun af => b.F.map (fun bf => composName [af, bf])))
  let u := mkNFA (ts1 ++ ts2) (some F) true (some (composName [a.q0, b.q0]))
  { u with transitions := u.transitions.filter (fun t =>
      t.1 ≠ t.2.2 ∨ (u.δ t.1 t.2.1).length = 1) }

/-- Embedding of the classmethod `NFA.union(a, b)`: a fresh start state `"0"`
with epsilon transitions to the tagged copies of both starts.  The `F`
argument is a Python list. -/
def NFA.union (a b : NFA) : NFA :=
  let ts := [("0", "ε", "a" ++ a.q0), ("0", "ε", "b" ++ b.q0)]
      ++ a.transitions.map (fun t => ("a" ++ t.1, String.singleton t.2.1, "a" ++ t.2.2))
      ++ b.transitions.map (fun t => ("b" ++ t.1, String.singleton t.2.1, "b" ++ t.2.2))
  let F := a.F.map (fun f => "a" ++ f) ++ b.F.map (fun f => "b" ++ f)
  mkNFA ts (some F) false (some ("0"))

/-- Embedding of the classmethod `NFA.concat(a, b)`: tag the transitions of `a`,
then for each accept state `f` of `a` splice in a copy of `b` whose start
state is identified with `f`; accept states are the spliced copies of the
accept states of `b`.  The `F` argument is a Python list. -/
def NFA.concat (a b : NFA) : NFA :=
  let init : List (String × String × String) × List String :=
    (a.transitions.map (fun t => ("a" ++ t.1, String.singleton t.2.1, "a" ++ t.2.2)), [])
  let res := a.F.foldl (fun acc f0 =>
      let f := "a" ++ f0
      (acc.1 ++ b.transitions.map (fun t =>
          (if t.1 = b.q0 then f else f ++ "b" ++ t.1, String.singleton t.2.1,
           if t.2.2 = b.q0 then f else f ++ "b" ++ t.2.2)),
       acc.2 ++ b.F.map (fun s => f ++ "b" ++ s))) init
  mkNFA res.1 (some res.2) false (some ("a" ++ a.q0))

/-- Embedding of the classmethod `NFA.kleene(nfa)`: fresh states `kq0` and
`kf` with epsilon transitions into the original start and back edges from the
original accept states; `F` and `q0` are left to the constructor defaults. -/
def NFA.kleene (nfa : NFA) : NFA :=
  mkNFA ([("kq0", "ε", nfa.q0), ("kq0", "ε", "kf")]
      ++ nfa.transitions.map (fun t => (t.1, String.singleton t.2.1, t.2.2))
      ++ nfa.F.map (fun f => (f, "ε", nfa.q0))
      ++ nfa.F.map (fun f => (f, "ε", "kf"))) none false none

/-- The balanced-parenthesis scan of `concat_re` inside `from_re`: walk from index
0 keeping an open-parenthesis count; stop after the count returns to zero or
the index walks past the end.  `Except.error` models the `IndexError` raised
on reading past the end (unbalanced input); the fuel `re.length + 2` is always
enough because the index grows by one per step and the loop stops once it
exceeds the length. -/
def scanParen (re : List Char) : Nat → Nat → Nat → Except Unit Nat
  | 0, _, _ => Except.error ()
  | fuel + 1, i, opn =>
    match re.get? i with
    | none => Except.error ()
    | some c =>
      let opn1 := if c = '(' then opn + 1 else opn
      let opn2 := if c = ')' then opn1 - 1 else opn1
      if opn2 = 0 ∨ i + 1 > re.length then Except.ok (i + 1)
      else scanParen re fuel (i + 1) opn2

/-- Body of the inner `concat_re(re, nfa)` of `from_re`, abstracted over the
recursive `from_re` calls.  Returns the parsed automaton, an `IndexError`
(`Except.error`, from the parenthesis scan), or `none` when the callback runs
out of fuel.  Mirrors the source: empty or `)`-headed input returns the accumulated
`nfa`; a single character becomes a two-state literal automaton (whatever the
character); otherwise the leftmost term is consumed and dispatched on the
following `*` / `+` / implicit-concatenation operator. -/
def concatReBody (fromRe : List Char → Option (Except Unit NFA)) (re : List Char)
    (nfa : NFA) : Option (Except Unit NFA) :=
  if re = [] ∨ re.head? = some ')' then some (Except.ok nfa)
  else if re.length = 1 then
    some (Except.ok (mkNFA [("0", String.singleton (re.headD ' '), "1")] none false none))
  else
    let lhsRes : Option (Except Unit (NFA × List Char)) :=
      if re.head? = some '(' then
        match scanParen re (re.length + 2) 0 0 with
        | Except.error _ => some (Except.error ())
        | Except.ok i =>
          match fromRe ((re.take (i - 1)).drop 1) with
          | none => none
          | some (Except.error _) => some (Except.error ())
          | some (Except.ok inner) =>
            some (Except.ok (NFA.concat nfa inner, re.drop (i - 1)))
      else
        match fromRe [if re.headD ' ' ≠ '!' then re.headD ' ' else 'ε'] with
        | none => none
        | some (Except.error _) => some (Except.error ())
        | some (Except.ok l) => some (Except.ok (l, re))
    match lhsRes with
    | none => none
    | some (Except.error _) => some (Except.error ())
    | some (Except.ok (lhs, re2)) =>
      if re2.length > 1 ∧ re2.get? 1 = some '*' then
        match fromRe (re2.drop 2) with
        | none => none
        | some (Except.error _) => some (Except.error ())
        | some (Except.ok rest) =>
          some (Except.ok (NFA.concat (NFA.concat nfa (NFA.kleene lhs)) rest))
      else if re2.length > 1 ∧ re2.get? 1 = some '+' then
        match fromRe (re2.drop 2) with
        | none => none
        | some (Except.error _) => some (Except.error ())
        | some (Except.ok rest) => some (Except.ok (NFA.concat nfa (NFA.union lhs rest)))
      else
        match fromRe (re2.drop 1) with
        | none => none
        | some (Except.error _) => some (Except.error ())
        | some (Except.ok rest) => some (Except.ok (NFA.concat nfa (NFA.concat lhs rest)))

/-- Embedding of the classmethod `NFA.from_re(re)`: run `concat_re` with the
default seed automaton `NFA([('0','ε','1')], F=[])` (a Python list argument),
then `rename` the result.  Fuel bounds the nesting depth of `from_re` calls. -/
def fromReFuel : Nat → List Char → Option (Except Unit NFA)
  | 0, _ => none
  | fuel + 1, re =>
    match concatReBody (fromReFuel fuel) re (mkNFA [("0", "ε", "1")] (some []) false none) with
    | none => none
    | some (Except.error e) => some (Except.error e)
    | some (Except.ok n) => some (Except.ok n.rename)

/-- Path semantics of `accept`: a derivation mirrors one successful branch of
the recursive search — an epsilon move, halting in an accept state on empty
input, or consuming the next input symbol.  (As in `δ`, a literal `'ε'` input
character also matches epsilon transitions in the `step` case.) -/
inductive Accepts (A : NFA) : String → List Char → Prop where
  | eps {q input v} : (q, 'ε', v) ∈ A.transitions → Accepts A v input → Accepts A q input
  | final {q} : q ∈ A.F → Accepts A q []
  | step {q c rest v} : (q, c, v) ∈ A.transitions → Accepts A v rest → Accepts A q (c :: rest)

/-- Statement that `input` splits into zero or more pieces, on each of which
`accept` reports `True` (the Kleene-star of the accepted language). -/
inductive IterAccept (A : NFA) : List Char → Prop where
  | nil : IterAccept A []
  | cons {x y} : acceptR A x true → IterAccept A y → IterAccept A (x ++ y)

/-- Numeric value of a decimal digit character (inverse of `Nat.digitChar`). -/
def digitVal (c : Char) : Nat := c.toNat - 48

/-- Left fold reading a decimal digit string back into a number. -/
def parseAcc : Nat → List Char → Nat
  | a, [] => a
  | a, c :: cs => parseAcc (a * 10 + digitVal c) cs

/-! Concrete automata used to settle individual claims. -/

/-- The automaton built from the entries `(p, x, them)`, `(us, ε, them)`,
`(us, y, z)` with accept set `[z]` and start state `p`: eliminating its single
epsilon transition redirects the transition of `p` into the merged state and
enlarges the language. -/
def c1A : NFA :=
  mkNFA [("p", "x", "them"), ("us", "ε", "them"), ("us", "y", "z")]
    (some ["z"]) false (some ("p"))

/-- The automaton built from the single entry `(0, a, 1)`: accepts exactly
`"a"`. -/
def c2a : NFA := mkNFA [("0", "a", "1")] none false none

/-- The automaton built from the single entry `(0, b, 1)` with the explicit
accept set `[0, 1]`: accepts `""` and `"b"` (its start state is accepting). -/
def c2b : NFA := mkNFA [("0", "b", "1")] (some ["0", "1"]) false none

/-- The automaton built from the single entry `(0, a, 1)`: accepts exactly
`"a"`. -/
def c3a : NFA := mkNFA [("0", "a", "1")] none false none

/-- The automaton built from the single entry `(0, b, 1)`: accepts exactly
`"b"`. -/
def c3b : NFA := mkNFA [("0", "b", "1")] none false none

/-- A one-transition automaton that `to_dfa` returns unchanged. -/
def c4w : NFA := mkNFA [("q", "a", "r")] none false none

/-- The automaton built from the single entry `(0, ε, 0)`: an epsilon
self-loop, on which `accept` recurses forever. -/
def c5A : NFA := mkNFA [("0", "ε", "0")] none false none

/-- The automaton built from the entries `(0, x, kf)`, `(kf, y, 1)` with
accept set `[1]`: accepts exactly `"xy"`; its state named `kf` collides with
the fresh accept state `kleene` adds. -/
def c7a : NFA := mkNFA [("0", "x", "kf"), ("kf", "y", "1")] (some ["1"]) false none

/-- The automaton built from the entries `(0, a, 1)`, `(0, a, 2)` with accept
set `[1]`: nondeterministic on `(0, a)` with a list-valued `F`, so the call
`self.F.add` in `to_dfa` raises. -/
def c9A : NFA := mkNFA [("0", "a", "1"), ("0", "a", "2")] (some ["1"]) false none

/-- A 12-state automaton: `accept` on the empty string returns `True` by
exploring the sorted epsilon targets `[a2, b]` of the start state `z` in that
order, but after `rename` the targets become `2` and `10`, the string sort now
explores `10` (the epsilon self-loop `b`) first, and the search never
returns. -/
def c10A : NFA :=
  mkNFA [("a0", "x", "a1"), ("a1", "x", "a3"), ("a3", "x", "a4"), ("a4", "x", "a5"),
    ("a5", "x", "a6"), ("a6", "x", "a7"), ("a7", "x", "a8"), ("a8", "x", "a9"),
    ("z", "ε", "a2"), ("z", "ε", "b"), ("b", "ε", "b")]
    (some ["a2"]) false (some ("z"))

/-- A small epsilon-free automaton witnessing the amended rename claim. -/
def c10w : NFA := mkNFA [("s", "a", "t")] none false none

/-! Membership lemmas for the `set` / `sorted` embeddings. -/

theorem mem_pyDedupAux {α : Type} [DecidableEq α] (x : α) :
    ∀ (l seen : List α), x ∈ pyDedupAux seen l ↔ x ∈ l ∧ x ∉ seen := by
  intro l
  induction l with
  | nil => intro seen; simp [pyDedupAux]
  | cons a as ih =>
    intro seen
    by_cases ha : a ∈ seen
    · rw [pyDedupAux, if_pos ha, ih]
      constructor
      · rintro ⟨h1, h2⟩; exact ⟨List.mem_cons_of_mem a h1, h2⟩
      · rintro ⟨h1, h2⟩
        rcases List.mem_cons.mp h1 with rfl | h1
        · exact absurd ha h2
        · exact ⟨h1, h2⟩
    · rw [pyDedupAux, if_neg ha]
      by_cases hx : x = a
      · subst hx; simp [ha]
      · simp [List.mem_cons, hx, ih]

theorem mem_pyDedup {α : Type} [DecidableEq α] (x : α) (l : List α) :
    x ∈ pyDedup l ↔ x ∈ l := by
  rw [pyDedup, mem_pyDedupAux]; simp

theorem mem_insSorted {α : Type} (le : α → α → Bool) (a x : α) :
    ∀ l, x ∈ insSorted le a l ↔ x = a ∨ x ∈ l := by
  intro l
  induction l with
  | nil => simp [insSorted]
  | cons y ys ih =>
    rw [insSorted]
    by_cases h : le a y = true
    · rw [if_pos h]; simp [List.mem_cons]
    · rw [if_neg h]
      simp only [List.mem_cons, ih]
      tauto

theorem mem_pySort {α : Type} (le : α → α → Bool) (x : α) :
    ∀ l, x ∈ pySort le l ↔ x ∈ l := by
  intro l
  induction l with
  | nil => simp [pySort]
  | cons a as ih => rw [pySort, mem_insSorted, ih, List.mem_cons]

/-- A target is listed by `δ` exactly when the corresponding transition is
present. -/
theorem mem_δ (A : NFA) (q : String) (c : Char) (v : String) :
    v ∈ A.δ q c ↔ (q, c, v) ∈ A.transitions := by
  rw [NFA.δ, mem_pySort]
  simp only [List.mem_map, List.mem_filter, decide_eq_true_eq]
  constructor
  · rintro ⟨⟨t1, t2, t3⟩, ⟨ht, h1, h2⟩, rfl⟩
    simp only at h1 h2 ⊢
    subst h1; subst h2; exact ht
  · intro h
    exact ⟨(q, c, v), ⟨h, rfl, rfl⟩, rfl⟩

/-- Transition endpoints belong to `Q()`. -/
theorem mem_Qlist_of_trans (A : NFA) (t : Tr) (ht : t ∈ A.transitions) :
    t.1 ∈ A.Qlist ∧ t.2.2 ∈ A.Qlist := by
  rw [NFA.Qlist, mem_pyDedup, mem_pyDedup]
  constructor
  · exact List.mem_append_left _ (List.mem_map_of_mem _ ht)
  · exact List.mem_append_right _ (List.mem_map_of_mem _ ht)

/-! Behaviour of the sequential nondeterministic OR. -/

theorem anyAcceptM_true {f : String → Option Bool} :
    ∀ {l}, anyAcceptM f l = some true → ∃ n ∈ l, f n = some true := by
  intro l
  induction l with
  | nil => intro h; simp [anyAcceptM] at h
  | cons n ns ih =>
    intro h
    rw [anyAcceptM] at h
    match hf : f n with
    | none => rw [hf] at h; exact absurd h (by simp)
    | some true => exact ⟨n, List.mem_cons_self n ns, hf⟩
    | some false =>
      rw [hf] at h
      obtain ⟨m, hm, hfm⟩ := ih h
      exact ⟨m, List.mem_cons_of_mem n hm, hfm⟩

theorem anyAcceptM_false {f : String → Option Bool} :
    ∀ {l}, anyAcceptM f l = some false → ∀ n ∈ l, f n = some false := by
  intro l
  induction l with
  | nil => intro _ n hn; exact absurd hn (List.not_mem_nil n)
  | cons m ms ih =>
    intro h n hn
    rw [anyAcceptM] at h
    match hf : f m with
    | none => rw [hf] at h; exact absurd h (by simp)
    | some true => rw [hf] at h; exact absurd h (by simp)
    | some false =>
      rw [hf] at h
      rcases List.mem_cons.mp hn with rfl | hn
      · exact hf
      · exact ih h n hn

theorem anyAcceptM_congr {f g : String → Option Bool}
    (h : ∀ n b, f n = some b → g n = some b) :
    ∀ l b, anyAcceptM f l = some b → anyAcceptM g l = some b := by
  intro l
  induction l with
  | nil => intro b hb; exact hb
  | cons n ns ih =>
    intro b hb
    rw [anyAcceptM] at hb ⊢
    match hf : f n with
    | none => rw [hf] at hb; exact absurd hb (by simp)
    | some true => rw [hf] at hb; rw [h n true hf]; exact hb
    | some false => rw [hf] at hb; rw [h n false hf]; exact ih b hb

theorem anyAcceptM_total {f : String → Option Bool} :
    ∀ l, (∀ n ∈ l, ∃ b, f n = some b) → ∃ b, anyAcceptM f l = some b := by
  intro l
  induction l with
  | nil => intro _; exact ⟨false, rfl⟩
  | cons n ns ih =>
    intro h
    obtain ⟨b, hb⟩ := h n (List.mem_cons_self n ns)
    match b, hb with
    | true, hb => exact ⟨true, by rw [anyAcceptM, hb]⟩
    | false, hb =>
      obtain ⟨b2, hb2⟩ := ih (fun m hm => h m (List.mem_cons_of_mem n hm))
      exact ⟨b2, by rw [anyAcceptM, hb, hb2]⟩

/-- Unfolding of `acceptFuel` at zero fuel. -/
theorem acceptFuel_zero (A : NFA) (input : List Char) (state : String) :
    acceptFuel A 0 input state = none := rfl

/-- Unfolding of `acceptFuel` at positive fuel. -/
theorem acceptFuel_succ (A : NFA) (f : Nat) (input : List Char) (state : String) :
    acceptFuel A (f + 1) input state =
      match anyAcceptM (fun n => acceptFuel A f input n) (A.δ state 'ε') with
      | none => none
      | some true => some true
      | some false =>
        match input with
        | [] => some (decide (state ∈ A.F))
        | c :: rest => anyAcceptM (fun n => acceptFuel A f rest n) (A.δ state c) := rfl

/-- More fuel never changes a returned answer. -/
theorem acceptFuel_mono (A : NFA) :
    ∀ {f g : Nat} {input q b}, f ≤ g →
      acceptFuel A f input q = some b → acceptFuel A g input q = some b := by
  intro f
  induction f with
  | zero => intro g input q b _ h; rw [acceptFuel_zero] at h; exact absurd h (by simp)
  | succ f ih =>
    intro g input q b hfg h
    match g, hfg with
    | g + 1, hfg =>
      have hfg' : f ≤ g := Nat.le_of_succ_le_succ hfg
      rw [acceptFuel_succ] at h ⊢
      have hcε := @anyAcceptM_congr (fun n => acceptFuel A f input n)
        (fun n => acceptFuel A g input n) (fun n b hb => ih hfg' hb)
      match h1 : anyAcceptM (fun n => acceptFuel A f input n) (A.δ q 'ε') with
      | none => rw [h1] at h; exact absurd h (by simp)
      | some true => rw [h1] at h; rw [hcε _ true h1]; exact h
      | some false =>
        rw [h1] at h; rw [hcε _ false h1]
        match input with
        | [] => exact h
        | c :: rest =>
          exact @anyAcceptM_congr (fun n => acceptFuel A f rest n)
            (fun n => acceptFuel A g rest n) (fun n b hb => ih hfg' hb) _ b h

/-- When the fueled search returns `True`, an accepting derivation exists. -/
theorem acceptFuel_sound_true (A : NFA) :
    ∀ (f : Nat) (input : List Char) (q : String),
      acceptFuel A f input q = some true → Accepts A q input := by
  intro f
  induction f with
  | zero => intro input q h; rw [acceptFuel_zero] at h; exact absurd h (by simp)
  | succ f ih =>
    intro input q h
    rw [acceptFuel_succ] at h
    match h1 : anyAcceptM (fun n => acceptFuel A f input n) (A.δ q 'ε') with
    | none => rw [h1] at h; exact absurd h (by simp)
    | some true =>
      obtain ⟨n, hn, hfn⟩ := anyAcceptM_true h1
      exact Accepts.eps ((mem_δ A q 'ε' n).mp hn) (ih input n hfn)
    | some false =>
      rw [h1] at h
      match input with
      | [] =>
        have hqF : q ∈ A.F := by simpa using h
        exact Accepts.final hqF
      | c :: rest =>
        obtain ⟨n, hn, hfn⟩ := anyAcceptM_true h
        exact Accepts.step ((mem_δ A q c n).mp hn) (ih rest n hfn)

/-- When the fueled search returns `False`, no accepting derivation exists. -/
theorem acceptFuel_sound_false (A : NFA) :
    ∀ (f : Nat) (input : List Char) (q : String),
      acceptFuel A f input q = some false → ¬ Accepts A q input := by
  intro f
  induction f with
  | zero => intro input q h; rw [acceptFuel_zero] at h; exact absurd h (by simp)
  | succ f ih =>
    intro input q h hacc
    rw [acceptFuel_succ] at h
    match h1 : anyAcceptM (fun n => acceptFuel A f input n) (A.δ q 'ε') with
    | none => rw [h1] at h; exact absurd h (by simp)
    | some true => rw [h1] at h; exact absurd h (by simp)
    | some false =>
      rw [h1] at h
      cases hacc with
      | eps ht hrest =>
        exact ih _ _ (anyAcceptM_false h1 _ ((mem_δ A q 'ε' _).mpr ht)) hrest
      | final hqF =>
        have : ¬ q ∈ A.F := by simpa using h
        exact this hqF
      | step ht hrest =>
        exact ih _ _ (anyAcceptM_false h _ ((mem_δ A q _ _).mpr ht)) hrest

/-- Termination of the search under an epsilon rank: if some `r` strictly
decreases along every epsilon transition (in particular when the epsilon
graph is acyclic) and `N` bounds `r` on transition targets, the search
returns within fuel `|input| * (N+1) + r q + 1`. -/
theorem acceptFuel_total (A : NFA) (r : String → Nat) (N : Nat)
    (hr : ∀ u v, (u, 'ε', v) ∈ A.transitions → r v < r u)
    (hN : ∀ t ∈ A.transitions, r t.2.2 ≤ N) :
    ∀ (μ : Nat) (input : List Char) (q : String),
      input.length * (N + 1) + r q ≤ μ →
      ∃ b, acceptFuel A (μ + 1) input q = some b := by
  intro μ
  induction μ using Nat.strong_induction_on with
  | _ μ ih =>
    intro input q hμ
    rw [acceptFuel_succ]
    have hε : ∀ n ∈ A.δ q 'ε', ∃ b, acceptFuel A μ input n = some b := by
      intro n hn
      have hedge := (mem_δ A q 'ε' n).mp hn
      have hrn : r n < r q := hr q n hedge
      have hlt : input.length * (N + 1) + r n < μ := by omega
      obtain ⟨b, hb⟩ := ih _ hlt input n (le_refl _)
      exact ⟨b, acceptFuel_mono A (by omega) hb⟩
    obtain ⟨b1, hb1⟩ := anyAcceptM_total _ hε
    match b1, hb1 with
    | true, hb1 => exact ⟨true, by rw [hb1]⟩
    | false, hb1 =>
      rw [hb1]
      match input, hμ with
      | [], _ => exact ⟨decide (q ∈ A.F), rfl⟩
      | c :: rest, hμ =>
        have hlen : (c :: rest).length = rest.length + 1 := rfl
        have hst : ∀ n ∈ A.δ q c, ∃ b, acceptFuel A μ rest n = some b := by
          intro n hn
          have hedge := (mem_δ A q c n).mp hn
          have hrn : r n ≤ N := hN _ hedge
          have hexp : (rest.length + 1) * (N + 1) = rest.length * (N + 1) + (N + 1) := by
            ring
          have hlt : rest.length * (N + 1) + r n < μ := by
            rw [hlen] at hμ; omega
          obtain ⟨b, hb⟩ := ih _ hlt rest n (le_refl _)
          exact ⟨b, acceptFuel_mono A (by omega) hb⟩
        exact anyAcceptM_total _ hst

/-- Accepting derivations are preserved by any state map that carries the
transitions and accept states over. -/
theorem accepts_map_forward (A B : NFA) (φ : String → String)
    (hT : ∀ t ∈ A.transitions, (φ t.1, t.2.1, φ t.2.2) ∈ B.transitions)
    (hF : ∀ f ∈ A.F, φ f ∈ B.F) :
    ∀ {q input}, Accepts A q input → Accepts B (φ q) input := by
  intro q input h
  induction h with
  | eps ht _ ih => exact Accepts.eps (hT _ ht) ih
  | final hqF => exact Accepts.final (hF _ hqF)
  | step ht _ ih => exact Accepts.step (hT _ ht) ih

/-- Accepting derivations pull back along a state map that is injective on the
state set, when every transition and accept state of `B` is the image of one
of `A`. -/
theorem accepts_map_backward (A B : NFA) (φ : String → String)
    (hT : ∀ s ∈ B.transitions, ∃ t, t ∈ A.transitions ∧ s = (φ t.1, t.2.1, φ t.2.2))
    (hF : ∀ g ∈ B.F, ∃ f, f ∈ A.F ∧ g = φ f)
    (hinj : ∀ x ∈ A.Qlist, ∀ y ∈ A.Qlist, φ x = φ y → x = y)
    (hFQ : ∀ f ∈ A.F, f ∈ A.Qlist) :
    ∀ {p input}, Accepts B p input → ∀ q, q ∈ A.Qlist → p = φ q → Accepts A q input := by
  intro p input h
  induction h with
  | eps hedge _ ih =>
    intro q hq hpq
    obtain ⟨t, htA, hts⟩ := hT _ hedge
    obtain ⟨u, c, v⟩ := t
    simp only [Prod.mk.injEq] at hts
    obtain ⟨h1, h2, h3⟩ := hts
    have hu : u ∈ A.Qlist := (mem_Qlist_of_trans A _ htA).1
    have hv : v ∈ A.Qlist := (mem_Qlist_of_trans A _ htA).2
    have huq : u = q := hinj u hu q hq (h1.symm.trans hpq).symm.symm
    subst huq; subst h2
    exact Accepts.eps htA (ih v hv h3)
  | final hgF =>
    intro q hq hpq
    obtain ⟨f, hfF, hfp⟩ := hF _ hgF
    have : f = q := hinj f (hFQ f hfF) q hq (hfp.symm.trans hpq)
    subst this
    exact Accepts.final hfF
  | step hedge _ ih =>
    intro q hq hpq
    obtain ⟨t, htA, hts⟩ := hT _ hedge
    obtain ⟨u, c', v⟩ := t
    simp only [Prod.mk.injEq] at hts
    obtain ⟨h1, h2, h3⟩ := hts
    have hu : u ∈ A.Qlist := (mem_Qlist_of_trans A _ htA).1
    have hv : v ∈ A.Qlist := (mem_Qlist_of_trans A _ htA).2
    have huq : u = q := hinj u hu q hq (h1.symm.trans hpq).symm.symm
    subst huq; subst h2
    exact Accepts.step htA (ih v hv h3)

/-! Injectivity of `str(i)` (`Nat.repr`), via a decimal-parsing round trip. -/

theorem parseAcc_nil (a : Nat) : parseAcc a [] = a := rfl

theorem parseAcc_cons (a : Nat) (c : Char) (cs : List Char) :
    parseAcc a (c :: cs) = parseAcc (a * 10 + digitVal c) cs := rfl

theorem parseAcc_append : ∀ (l1 l2 : List Char) (a : Nat),
    parseAcc a (l1 ++ l2) = parseAcc (parseAcc a l1) l2 := by
  intro l1
  induction l1 with
  | nil => intro l2 a; rfl
  | cons c cs ih => intro l2 a; rw [List.cons_append, parseAcc_cons, parseAcc_cons, ih]

theorem digitVal_digitChar : ∀ m, m < 10 → digitVal (Nat.digitChar m) = m := by
  intro m hm
  interval_cases m <;> rfl

theorem toDigitsCore_succ (b f n : Nat) (ds : List Char) :
    Nat.toDigitsCore b (f + 1) n ds =
      if n / b = 0 then Nat.digitChar (n % b) :: ds
      else Nat.toDigitsCore b f (n / b) (Nat.digitChar (n % b) :: ds) := rfl

theorem toDigitsCore_shift (b : Nat) :
    ∀ (f n : Nat) (ds : List Char),
      Nat.toDigitsCore b f n ds = Nat.toDigitsCore b f n [] ++ ds := by
  intro f
  induction f with
  | zero => intro n ds; rfl
  | succ f ih =>
    intro n ds
    rw [toDigitsCore_succ, toDigitsCore_succ]
    by_cases h : n / b = 0
    · rw [if_pos h, if_pos h]; rfl
    · rw [if_neg h, if_neg h, ih (n / b) (Nat.digitChar (n % b) :: ds),
        ih (n / b) [Nat.digitChar (n % b)], List.append_assoc]
      rfl

theorem parseAcc_toDigitsCore :
    ∀ (f n a : Nat), n < f →
      parseAcc a (Nat.toDigitsCore 10 f n []) =
        a * 10 ^ (Nat.toDigitsCore 10 f n []).length + n := by
  intro f
  induction f with
  | zero => intro n a h; exact absurd h (Nat.not_lt_zero n)
  | succ f ih =>
    intro n a h
    rw [toDigitsCore_succ]
    by_cases h0 : n / 10 = 0
    · rw [if_pos h0]
      have hn : n % 10 = n := by omega
      rw [parseAcc_cons, parseAcc_nil, digitVal_digitChar (n % 10) (Nat.mod_lt n (by omega)), hn]
      simp [pow_one]
    · rw [if_neg h0]
      have hlt : n / 10 < f := by
        have h1 : n / 10 < n := Nat.div_lt_self (by omega) (by omega)
        omega
      rw [toDigitsCore_shift, parseAcc_append, ih (n / 10) a hlt, parseAcc_cons, parseAcc_nil,
        digitVal_digitChar (n % 10) (Nat.mod_lt n (by omega)), List.length_append]
      have hdm := Nat.div_add_mod n 10
      have hone : ([Nat.digitChar (n % 10)] : List Char).length = 1 := rfl
      rw [hone, pow_succ]
      calc (a * 10 ^ (Nat.toDigitsCore 10 f (n / 10) []).length + n / 10) * 10 + n % 10
          = a * (10 ^ (Nat.toDigitsCore 10 f (n / 10) []).length * 10)
            + (n / 10 * 10 + n % 10) := by ring
        _ = a * (10 ^ (Nat.toDigitsCore 10 f (n / 10) []).length * 10) + n := by
            have hx : n / 10 * 10 + n % 10 = n := by omega
            rw [hx]

theorem parseAcc_repr (n : Nat) : parseAcc 0 (Nat.repr n).data = n := by
  have h : (Nat.repr n).data = Nat.toDigitsCore 10 (n + 1) n [] := rfl
  rw [h, parseAcc_toDigitsCore (n + 1) n 0 (Nat.lt_succ_self n)]
  simp

theorem natRepr_inj {m n : Nat} (h : Nat.repr m = Nat.repr n) : m = n := by
  have h2 := congrArg (fun s => parseAcc 0 s.data) h
  simpa [parseAcc_repr] using h2

/-! The `enumerate(sorted(...))` index map of `rename` is injective on `Q()`. -/

theorem idxOf_getq (s : String) : ∀ l : List String, s ∈ l → l.get? (idxOf s l) = some s := by
  intro l
  induction l with
  | nil => intro h; exact absurd h (List.not_mem_nil s)
  | cons x xs ih =>
    intro hs
    rw [idxOf]
    by_cases hx : x = s
    · rw [if_pos hx, hx]; rfl
    · rw [if_neg hx]
      have hmem : s ∈ xs := by
        rcases List.mem_cons.mp hs with h | h
        · exact absurd h.symm hx
        · exact h
      simpa using ih hmem

theorem idxOf_inj {s t : String} {l : List String} (hs : s ∈ l) (ht : t ∈ l)
    (h : idxOf s l = idxOf t l) : s = t := by
  have h1 := idxOf_getq s l hs
  have h2 := idxOf_getq t l ht
  rw [h] at h1
  rw [h1] at h2
  exact Option.some.inj h2

theorem renameIds_inj (A : NFA) :
    ∀ x ∈ A.Qlist, ∀ y ∈ A.Qlist, renameIds A x = renameIds A y → x = y := by
  intro x hx y hy h
  have hx' : x ∈ pySort strLeB A.Qlist := (mem_pySort strLeB x A.Qlist).mpr hx
  have hy' : y ∈ pySort strLeB A.Qlist := (mem_pySort strLeB y A.Qlist).mpr hy
  exact idxOf_inj hx' hy' (natRepr_inj h)

/-- Inverting `renameIds` on `Q()` by searching the sorted state list. -/
theorem renameIds_find_inv (A : NFA) (u : String) (hu : u ∈ A.Qlist) :
    (((pySort strLeB A.Qlist).find? (fun q => renameIds A q = renameIds A u)).getD A.q0)
      = u := by
  have hu' : u ∈ pySort strLeB A.Qlist := (mem_pySort strLeB u A.Qlist).mpr hu
  match hfind : (pySort strLeB A.Qlist).find? (fun q => renameIds A q = renameIds A u) with
  | none =>
    have hnone := List.find?_eq_none.mp hfind u hu'
    simp at hnone
  | some w =>
    have hw1 : renameIds A w = renameIds A u := by
      have := List.find?_some hfind
      simpa using this
    have hw2 : w ∈ pySort strLeB A.Qlist := List.mem_of_find?_eq_some hfind
    have hwu : w = u :=
      renameIds_inj A w ((mem_pySort strLeB w A.Qlist).mp hw2) u hu hw1
    simp [hwu]

/-- C10 (amended): for every automaton whose start state and accept states
occur among its transition endpoints, and whose epsilon-transition graph is
acyclic (it admits a strictly decreasing rank `r`, bounded by `N` on
transition targets), `rename` does not change the boolean that `accept`
returns, on any input string.  (Without the acyclicity condition the claim
fails: renaming can reorder the sorted epsilon targets and steer the search
into an epsilon cycle, see the counterexample.) -/
theorem rename_accept_invariant (A : NFA) (r : String → Nat) (N : Nat)
    (hq0 : A.q0 ∈ A.Qlist) (hFQ : ∀ f ∈ A.F, f ∈ A.Qlist)
    (hr : ∀ u v, (u, 'ε', v) ∈ A.transitions → r v < r u)
    (hN : ∀ t ∈ A.transitions, r t.2.2 ≤ N) :
    ∀ input, ∃ b, acceptR A input b ∧ acceptR A.rename input b := by
  intro input
  obtain ⟨b1, hb1⟩ := acceptFuel_total A r N hr hN
    (input.length * (N + 1) + r A.q0) input A.q0 (le_refl _)
  have hrT : ∀ s ∈ A.rename.transitions,
      ∃ t, t ∈ A.transitions ∧ s = (renameIds A t.1, t.2.1, renameIds A t.2.2) := by
    intro s hs
    obtain ⟨t, ht, rfl⟩ := List.mem_map.mp hs
    exact ⟨t, ht, rfl⟩
  have hrF : ∀ g ∈ A.rename.F, ∃ f, f ∈ A.F ∧ g = renameIds A f := by
    intro g hg
    obtain ⟨f, hf, rfl⟩ := List.mem_map.mp hg
    exact ⟨f, hf, rfl⟩
  have hr' : ∀ u v, (u, 'ε', v) ∈ A.rename.transitions →
      (fun s => r (((pySort strLeB A.Qlist).find? (fun q => renameIds A q = s)).getD A.q0)) v
      < (fun s => r (((pySort strLeB A.Qlist).find? (fun q => renameIds A q = s)).getD A.q0)) u := by
    intro u v h
    obtain ⟨t, ht, hts⟩ := hrT _ h
    obtain ⟨t1, c, t3⟩ := t
    simp only [Prod.mk.injEq] at hts
    obtain ⟨h1, h2, h3⟩ := hts
    have e1 := (mem_Qlist_of_trans A _ ht).1
    have e2 := (mem_Qlist_of_trans A _ ht).2
    simp only at e1 e2
    subst h1; subst h3; subst h2
    simp only [renameIds_find_inv A t1 e1, renameIds_find_inv A t3 e2]
    exact hr t1 t3 ht
  have hN' : ∀ t ∈ A.rename.transitions,
      (fun s => r (((pySort strLeB A.Qlist).find? (fun q => renameIds A q = s)).getD A.q0)) t.2.2
      ≤ N := by
    intro s hs
    obtain ⟨t, ht, hts⟩ := hrT _ hs
    have e2 := (mem_Qlist_of_trans A _ ht).2
    rw [hts]
    simp only [renameIds_find_inv A t.2.2 e2]
    exact hN t ht
  obtain ⟨b2, hb2⟩ := acceptFuel_total A.rename
    (fun s => r (((pySort strLeB A.Qlist).find? (fun q => renameIds A q = s)).getD A.q0)) N hr' hN'
    (input.length * (N + 1)
      + r (((pySort strLeB A.Qlist).find? (fun q => renameIds A q = A.rename.q0)).getD A.q0))
    input A.rename.q0 (le_refl _)
  match b1, hb1 with
  | true, hb1 =>
    have hAcc : Accepts A A.q0 input := acceptFuel_sound_true A _ input A.q0 hb1
    have hAcc' : Accepts A.rename (renameIds A A.q0) input :=
      accepts_map_forward A A.rename (renameIds A)
        (fun t ht => List.mem_map_of_mem _ ht)
        (fun f hf => List.mem_map_of_mem _ hf) hAcc
    match b2, hb2 with
    | true, hb2 => exact ⟨true, ⟨_, hb1⟩, ⟨_, hb2⟩⟩
    | false, hb2 =>
      exact absurd hAcc' (acceptFuel_sound_false A.rename _ input A.rename.q0 hb2)
  | false, hb1 =>
    have hnAcc : ¬ Accepts A A.q0 input := acceptFuel_sound_false A _ input A.q0 hb1
    match b2, hb2 with
    | false, hb2 => exact ⟨false, ⟨_, hb1⟩, ⟨_, hb2⟩⟩
    | true, hb2 =>
      have hAcc' : Accepts A.rename A.rename.q0 input :=
        acceptFuel_sound_true A.rename _ input _ hb2
      have hAcc : Accepts A A.q0 input :=
        accepts_map_backward A A.rename (renameIds A) hrT hrF (renameIds_inj A) hFQ
          hAcc' A.q0 hq0 rfl
      exact absurd hAcc hnAcc

/-! Post-conditions of `to_dfa`: determinism and absence of epsilon
transitions, read off from the exit conditions of its loops. -/

theorem εElimFuel_zero (A : NFA) : εElimFuel 0 A = none := rfl

theorem εElimFuel_succ (f : Nat) (A : NFA) :
    εElimFuel (f + 1) A =
      match A.transitions.filter (fun t => t.2.1 = 'ε') with
      | [] => some A
      | t :: _ => εElimFuel f (εMerge A t) := rfl

/-- When `ε_elimination` returns, no epsilon transition remains (the while
loop only exits on an empty epsilon-transition list). -/
theorem εElimFuel_no_eps :
    ∀ (f : Nat) (A B : NFA), εElimFuel f A = some B →
      B.transitions.filter (fun t => t.2.1 = 'ε') = [] := by
  intro f
  induction f with
  | zero => intro A B h; rw [εElimFuel_zero] at h; exact absurd h (by simp)
  | succ f ih =>
    intro A B h
    rw [εElimFuel_succ] at h
    match hf : A.transitions.filter (fun t => t.2.1 = 'ε') with
    | [] =>
      rw [hf] at h
      have hAB : A = B := by simpa using h
      rw [← hAB]
      exact hf
    | t :: ts =>
      rw [hf] at h
      exact ih (εMerge A t) B h

theorem findBadPairAux_none (A : NFA) (q : String) :
    ∀ is, findBadPairAux A q is = none → ∀ i ∈ is, (A.δ q i).length ≤ 1 := by
  intro is
  induction is with
  | nil => intro _ i hi; exact absurd hi (List.not_mem_nil i)
  | cons j js ih =>
    intro h i hi
    rw [findBadPairAux] at h
    by_cases hlen : (A.δ q j).length > 1
    · rw [if_pos hlen] at h; exact absurd h (by simp)
    · rw [if_neg hlen] at h
      rcases List.mem_cons.mp hi with rfl | hi
      · omega
      · exact ih h i hi

theorem findBadPair_none (A : NFA) :
    ∀ qs, findBadPair A qs = none →
      ∀ q ∈ qs, ∀ i ∈ A.sigmaList, (A.δ q i).length ≤ 1 := by
  intro qs
  induction qs with
  | nil => intro _ q hq; exact absurd hq (List.not_mem_nil q)
  | cons p ps ih =>
    intro h q hq i hi
    rw [findBadPair] at h
    match haux : findBadPairAux A p A.sigmaList with
    | some pr => rw [haux] at h; exact absurd h (by simp)
    | none =>
      rw [haux] at h
      rcases List.mem_cons.mp hq with rfl | hq
      · exact findBadPairAux_none A q A.sigmaList haux i hi
      · exact ih h q hq i hi

/-- The exit condition of the scan extends to every state and symbol whatsoever:
a nonempty `δ(q, i)` puts `q` in `Q()` and (absent epsilon transitions) `i`
in `Σ()`. -/
theorem deterministic_of_scan (A : NFA)
    (hscan : findBadPair A A.Qlist = none)
    (hnoeps : A.transitions.filter (fun t => t.2.1 = 'ε') = []) :
    ∀ q i, (A.δ q i).length ≤ 1 := by
  intro q i
  match hδ : A.δ q i with
  | [] => simp
  | v :: vs =>
    have hv : v ∈ A.δ q i := by rw [hδ]; exact List.mem_cons_self v vs
    have ht := (mem_δ A q i v).mp hv
    have hqQ : q ∈ A.Qlist := (mem_Qlist_of_trans A _ ht).1
    have hiε : i ≠ 'ε' := by
      intro he
      subst he
      have hmem : (q, 'ε', v) ∈ A.transitions.filter (fun t => t.2.1 = 'ε') :=
        List.mem_filter.mpr ⟨ht, by simp⟩
      rw [hnoeps] at hmem
      exact absurd hmem (List.not_mem_nil _)
    have hiSig : i ∈ A.sigmaList := by
      rw [NFA.sigmaList, mem_pyDedup]
      exact List.mem_filterMap.mpr ⟨(q, i, v), ht, by simp [hiε]⟩
    rw [← hδ]
    exact findBadPair_none A A.Qlist hscan q hqQ i hiSig

theorem toDfaFuel_zero (A : NFA) : toDfaFuel 0 A = none := rfl

theorem toDfaFuel_succ (f : Nat) (A : NFA) :
    toDfaFuel (f + 1) A =
      match εElimFuel (A.transitions.length + 1) A with
      | none => none
      | some A1 =>
        let A2 : NFA := { A1 with transitions := pyDedup A1.transitions }
        match findBadPair A2 A2.Qlist with
        | none => some (Except.ok A2)
        | some (q, i) =>
          match toDfaStep A2 q i with
          | Except.error e => some (Except.error e)
          | Except.ok A3 => toDfaFuel f A3 := rfl

/-- Filtering after `pyDedup` keeps nothing that filtering the original list
would not keep. -/
theorem filter_pyDedup_eq_nil {α : Type} [DecidableEq α] (p : α → Bool) (l : List α)
    (h : l.filter p = []) : (pyDedup l).filter p = [] := by
  rw [List.filter_eq_nil_iff] at h ⊢
  intro a ha
  exact h a ((mem_pyDedup a l).mp ha)

/-- C4: for every automaton, whenever `to_dfa` returns (with the given fuel),
the resulting automaton has no epsilon transitions and its transition relation
contains at most one transition from any state on any symbol — `δ(q, i)` has
at most one element for all `q` and `i`. -/
theorem toDfa_deterministic :
    ∀ (f : Nat) (A A' : NFA), toDfaFuel f A = some (Except.ok A') →
      (∀ t ∈ A'.transitions, t.2.1 ≠ 'ε') ∧ ∀ q i, (A'.δ q i).length ≤ 1 := by
  intro f
  induction f with
  | zero => intro A A' h; rw [toDfaFuel_zero] at h; exact absurd h (by simp)
  | succ f ih =>
    intro A A' h
    rw [toDfaFuel_succ] at h
    match hE : εElimFuel (A.transitions.length + 1) A with
    | none => rw [hE] at h; exact absurd h (by simp)
    | some A1 =>
      rw [hE] at h
      simp only at h
      match hscan : findBadPair { A1 with transitions := pyDedup A1.transitions }
          { A1 with transitions := pyDedup A1.transitions }.Qlist with
      | none =>
        rw [hscan] at h
        have hA' : { A1 with transitions := pyDedup A1.transitions } = A' := by
          simpa using h
        have hnoeps : A'.transitions.filter (fun t => t.2.1 = 'ε') = [] := by
          rw [← hA']
          exact filter_pyDedup_eq_nil _ _ (εElimFuel_no_eps _ A A1 hE)
        refine ⟨?_, ?_⟩
        · intro t ht he
          have : t ∈ A'.transitions.filter (fun t => t.2.1 = 'ε') :=
            List.mem_filter.mpr ⟨ht, by simp [he]⟩
          rw [hnoeps] at this
          exact absurd this (List.not_mem_nil t)
        · exact deterministic_of_scan A' (hA' ▸ hscan) hnoeps
      | some (q, i) =>
        rw [hscan] at h
        have h2 : (match toDfaStep { A1 with transitions := pyDedup A1.transitions } q i with
            | Except.error e => some (Except.error e)
            | Except.ok A3 => toDfaFuel f A3) = some (Except.ok A') := h
        match hstep : toDfaStep { A1 with transitions := pyDedup A1.transitions } q i with
        | Except.error e =>
          rw [hstep] at h2
          exact absurd h2 (by simp)
        | Except.ok A3 =>
          rw [hstep] at h2
          exact ih A3 A' h2

/-! Helper facts for the claim theorems. -/

theorem anyAcceptM_cons (f : String → Option Bool) (n : String) (ns : List String) :
    anyAcceptM f (n :: ns) =
      match f n with
      | none => none
      | some true => some true
      | some false => anyAcceptM f ns := rfl

/-- The boolean `accept` returns is unique (by fuel monotonicity). -/
theorem acceptR_unique {A : NFA} {input : List Char} {b b' : Bool}
    (h : acceptR A input b) (h' : acceptR A input b') : b = b' := by
  obtain ⟨f, hf⟩ := h
  obtain ⟨g, hg⟩ := h'
  have h1 := acceptFuel_mono A (Nat.le_max_left f g) hf
  have h2 := acceptFuel_mono A (Nat.le_max_right f g) hg
  rw [h1] at h2
  exact Option.some.inj h2

/-- On the epsilon self-loop automaton, `accept` never returns from state
`"0"`, whatever the input and fuel. -/
theorem c5_diverges : ∀ (fuel : Nat) (input : List Char),
    acceptFuel c5A fuel input ("0") = none := by
  intro fuel
  induction fuel with
  | zero => intro input; rfl
  | succ f ih =>
    intro input
    have hδ : c5A.δ ("0") 'ε' = ["0"] := rfl
    rw [acceptFuel_succ, hδ, anyAcceptM_cons]
    simp only [ih]

/-- After renaming `c10A`, the search from the image `"10"` of the epsilon
self-loop state never returns. -/
theorem c10_diverges_loop : ∀ (fuel : Nat) (input : List Char),
    acceptFuel c10A.rename fuel input ("10") = none := by
  intro fuel
  induction fuel with
  | zero => intro input; rfl
  | succ f ih =>
    intro input
    have hδ : c10A.rename.δ ("10") 'ε' = ["10"] := rfl
    rw [acceptFuel_succ, hδ, anyAcceptM_cons]
    simp only [ih]

/-- After renaming `c10A`, the search from the renamed start state `"11"`
never returns: its sorted epsilon targets are `["10", "2"]` and the first one
diverges. -/
theorem c10_diverges : ∀ (fuel : Nat) (input : List Char),
    acceptFuel c10A.rename fuel input c10A.rename.q0 = none := by
  intro fuel
  match fuel with
  | 0 => intro input; rfl
  | f + 1 =>
    intro input
    have hq : c10A.rename.q0 = "11" := rfl
    have hδ : c10A.rename.δ ("11") 'ε' = ["10", "2"] := rfl
    rw [hq, acceptFuel_succ, hδ, anyAcceptM_cons]
    simp only [c10_diverges_loop f input]

/-! Totality of `ε_elimination` (supporting the analysis of the totality
claim: the elimination loop itself always terminates, because every iteration
strictly shrinks the transition set — the failure of the claim lies
elsewhere, see the `to_dfa` error theorem). -/

theorem εElimFuel_mono :
    ∀ {f g : Nat} {A B : NFA}, f ≤ g → εElimFuel f A = some B → εElimFuel g A = some B := by
  intro f
  induction f with
  | zero => intro g A B _ h; rw [εElimFuel_zero] at h; exact absurd h (by simp)
  | succ f ih =>
    intro g A B hfg h
    match g, hfg with
    | g + 1, hfg =>
      rw [εElimFuel_succ] at h ⊢
      match hf : A.transitions.filter (fun t => t.2.1 = 'ε') with
      | [] => rw [hf] at h ⊢; exact h
      | t :: ts => rw [hf] at h ⊢; exact ih (Nat.le_of_succ_le_succ hfg) h

theorem length_pyDedupAux_le {α : Type} [DecidableEq α] :
    ∀ (l seen : List α), (pyDedupAux seen l).length ≤ l.length := by
  intro l
  induction l with
  | nil => intro seen; simp [pyDedupAux]
  | cons a as ih =>
    intro seen
    rw [pyDedupAux]
    by_cases ha : a ∈ seen
    · rw [if_pos ha]; exact Nat.le_succ_of_le (ih seen)
    · rw [if_neg ha]; simpa using Nat.succ_le_succ (ih (a :: seen))

/-- Each iteration of the elimination loop removes the processed epsilon
transition, and the subsequent endpoint rewrites (set constructions) cannot
add transitions, so the transition count strictly decreases. -/
theorem εMerge_shrinks (A : NFA) (t : Tr) (ht : t ∈ A.transitions) :
    (εMerge A t).transitions.length < A.transitions.length := by
  have h1 : (A.transitions.erase t).length = A.transitions.length - 1 :=
    List.length_erase_of_mem ht
  have hpos : 0 < A.transitions.length := List.length_pos_of_mem ht
  have h2 : (εMerge A t).transitions.length ≤ (A.transitions.erase t).length := by
    calc (εMerge A t).transitions.length
        ≤ (pyDedupAux []
            ((A.transitions.erase t).map
              (fun s => (if s.1 = t.2.2 then t.1 else s.1, s.2.1, s.2.2)))).length := by
          rw [εMerge]
          simp only [pyDedup]
          exact le_trans (length_pyDedupAux_le _ _) (by rw [List.length_map])
      _ ≤ ((A.transitions.erase t).map
            (fun s => (if s.1 = t.2.2 then t.1 else s.1, s.2.1, s.2.2))).length :=
          length_pyDedupAux_le _ _
      _ = (A.transitions.erase t).length := List.length_map _ _
  omega

/-- `ε_elimination` terminates on every automaton, within one iteration per
transition. -/
theorem εElim_total :
    ∀ (n : Nat) (A : NFA), A.transitions.length ≤ n →
      ∃ B, εElimFuel (n + 1) A = some B := by
  intro n
  induction n using Nat.strong_induction_on with
  | _ n ih =>
    intro A hn
    rw [εElimFuel_succ]
    match hf : A.transitions.filter (fun t => t.2.1 = 'ε') with
    | [] => rw [hf]; exact ⟨A, rfl⟩
    | t :: ts =>
      rw [hf]
      have htf : t ∈ A.transitions.filter (fun s => s.2.1 = 'ε') := by
        rw [hf]; exact List.mem_cons_self t ts
      have ht : t ∈ A.transitions := (List.mem_filter.mp htf).1
      have hlt := εMerge_shrinks A t ht
      have hn1 : 1 ≤ n := by omega
      obtain ⟨B, hB⟩ := ih (n - 1) (by omega) (εMerge A t) (by omega)
      refine ⟨B, ?_⟩
      have heq : n - 1 + 1 = n := by omega
      rw [heq] at hB
      exact hB

/-! The claim theorems. -/

/-- C1: the claim asserts `accept` returns the same boolean before and after
`ε_elimination` / `to_dfa`.  On `c1A` and the input `"xy"`, `accept` returns
`False` before either transform but `True` after each of them: merging
`them` into `us` redirects the x-transition out of `p` to `us`, which gives
`p` access to the continuation `(us, y, z)` of `us`. -/
theorem claim_C1_bug :
    acceptR c1A ['x', 'y'] false ∧
    (∃ A', εElimFuel 2 c1A = some A' ∧ ∃ f, acceptFuel A' f ['x', 'y'] A'.q0 = some true) ∧
    (∃ A', toDfaFuel 3 c1A = some (Except.ok A') ∧
      ∃ f, acceptFuel A' f ['x', 'y'] A'.q0 = some true) :=
  ⟨⟨5, rfl⟩, ⟨_, rfl, 5, rfl⟩, ⟨_, rfl, 5, rfl⟩⟩

/-- C2: the claim asserts `concat(a,b).accept(s)` is true iff `s` splits as
`x ++ y` with `a` accepting `x` and `b` accepting `y`, including the case
where `b` accepts the empty string.  Here `a` accepts `"a"` and `b` accepts
`""` (the split `"a" = "a" ++ ""`), yet `concat(a,b).accept("a")` returns
`False`: the splice renames the accepting start state `0` of `b` to `a1b0`, a
state distinct from the splice point `a1` actually reached. -/
theorem claim_C2_bug :
    acceptR c2a ['a'] true ∧ acceptR c2b [] true ∧
    acceptR (NFA.concat c2a c2b) ['a'] false :=
  ⟨⟨3, rfl⟩, ⟨2, rfl⟩, ⟨3, rfl⟩⟩

/-- C5: the claim asserts `accept` terminates on every automaton, including
ones whose transition relation contains epsilon cycles.  On the epsilon
self-loop automaton `NFA([('0','ε','0')])` the epsilon-closure phase calls
itself on the same state and input forever: no recursion budget returns. -/
theorem claim_C5_bug : ∀ (fuel : Nat) (input : List Char),
    acceptFuel c5A fuel input c5A.q0 = none := by
  intro fuel input
  exact c5_diverges fuel input

/-- C3: the claim asserts `intersection(a,b).accept(s)` is true iff both
operands accept `s`.  With `a` accepting exactly `"a"` and `b` accepting
exactly `"b"`, the product accepts `"ab"` — the construction pairs each
transition of one operand with every state of the other, so the two operands
consume disjoint interleaved pieces of the input (a shuffle product, not an
intersection) — although neither operand accepts `"ab"`. -/
theorem claim_C3_bug :
    acceptR (NFA.intersection c3a c3b) ['a', 'b'] true ∧
    acceptR c3a ['a', 'b'] false ∧ acceptR c3b ['a', 'b'] false :=
  ⟨⟨4, rfl⟩, ⟨3, rfl⟩, ⟨2, rfl⟩⟩

/-- C4 witness: a concrete run of `to_dfa` that returns, on which the
post-condition theorem applies. -/
theorem toDfa_deterministic_witness :
    toDfaFuel 1 c4w = some (Except.ok c4w) ∧
    (c4w.δ ("q") 'a').length ≤ 1 ∧ (c4w.δ ("q") 'ε').length ≤ 1 :=
  ⟨rfl, (toDfa_deterministic 1 c4w c4w rfl).2 ("q") 'a',
    (toDfa_deterministic 1 c4w c4w rfl).2 ("q") 'ε'⟩

/-- C6: the claim asserts `from_re` reports a syntax error on a dangling
`*` operator and never silently returns a wrong automaton.  But
`from_re('*')` hits the single-character base case of `concat_re`, which
builds the two-state literal automaton `NFA([('0','*','1')])` — an automaton
accepting the literal string `"*"` — and reports nothing. -/
theorem claim_C6_bug :
    ∃ r, fromReFuel 3 ['*'] = some (Except.ok r) ∧
      r.transitions = [("0", '*', "1")] ∧ acceptR r ['*'] true :=
  ⟨_, rfl, rfl, ⟨3, rfl⟩⟩

/-- C7: the claim asserts `kleene(a).accept(s)` is true iff `s` decomposes
into zero or more substrings accepted by `a`.  With `a = c7a`, whose state
`kf` collides with the fresh accept state `kleene` adds, `kleene(a)`
accepts `"x"` — reached by `kq0 →ε 0 →x kf` where `kf` is now accepting —
although `a` accepts only `"xy"`, so `"x"` has no such decomposition. -/
theorem claim_C7_bug :
    acceptR (NFA.kleene c7a) ['x'] true ∧ ¬ IterAccept c7a ['x'] := by
  refine ⟨⟨5, rfl⟩, ?_⟩
  intro h
  have hgen : ∀ (w : List Char), IterAccept c7a w → w = ['x'] → False := by
    intro w hw
    induction hw with
    | nil => intro he; exact absurd he (by simp)
    | @cons x y hx _ ih =>
      intro he
      rcases x with _ | ⟨c, cs⟩
      · exact absurd (acceptR_unique hx ⟨1, rfl⟩) (by decide)
      · simp only [List.cons_append, List.cons.injEq] at he
        obtain ⟨rfl, he2⟩ := he
        obtain ⟨rfl, rfl⟩ := List.append_eq_nil.mp he2
        exact absurd (acceptR_unique hx ⟨2, rfl⟩) (by decide)
  exact hgen ['x'] h rfl

/-- C8 counterexample: supplying an explicitly empty accept set does not give
an empty accept set — the Python expression `F or set(...)` treats the
empty collection as falsy and installs the default singleton instead. -/
theorem claim_C8_counterexample :
    (mkNFA [("a", "x", "b")] (some []) false none).F = ["b"] ∧
    (["b"] : List String) ≠ ([] : List String) :=
  ⟨rfl, by simp⟩

/-- C8 (amended): for a non-empty transition list, a supplied non-empty
(truthy) start state and a supplied non-empty accept collection are used as
given; an omitted (or empty, hence falsy) start state defaults to the
from-state of the first entry, and an omitted or explicitly empty accept
collection defaults to the singleton of the to-state of the last entry. -/
theorem claim_C8_amended (ts : List (String × String × String)) (F : List String)
    (q : String) (fs : Bool) (_hts : ts ≠ []) (hF : F ≠ []) (hq : q ≠ "") :
    (mkNFA ts (some F) fs (some q)).q0 = q ∧
    (mkNFA ts (some F) fs (some q)).F = F ∧
    (mkNFA ts none fs none).q0 = (ts.headD ("", "", "")).1 ∧
    (mkNFA ts none fs none).F = [(ts.getLastD ("", "", "")).2.2] ∧
    (mkNFA ts (some []) fs none).F = [(ts.getLastD ("", "", "")).2.2] := by
  refine ⟨?_, ?_, rfl, rfl, rfl⟩
  · simp [mkNFA, hq]
  · simp [mkNFA, hF]

/-- C8 witness: a concrete constructor call with explicit non-empty `F` and
`q0`. -/
theorem claim_C8_witness :
    (mkNFA [("a", "x", "b")] (some ["z"]) false (some ("s"))).q0 = "s" ∧
    (mkNFA [("a", "x", "b")] (some ["z"]) false (some ("s"))).F = ["z"] :=
  ⟨(claim_C8_amended [("a", "x", "b")] ["z"] ("s") false (by simp) (by simp) (by simp)).1,
   (claim_C8_amended [("a", "x", "b")] ["z"] ("s") false (by simp) (by simp) (by simp)).2.1⟩

/-- C9: the claim asserts `ε_elimination` and `to_dfa` never raise on an
automaton satisfying the data-model invariants.  On `c9A` (a valid automaton
whose accept set was supplied as a Python list) `to_dfa` reaches
`self.F.add(state)` while copying acceptance onto the composite state and
raises `AttributeError`, because the constructor stored the supplied list
without converting it to a set. -/
theorem claim_C9_bug :
    toDfaFuel 5 c9A =
      some (Except.error ("AttributeError: list object has no attribute add")) := rfl

/-- C10 counterexample: `c10A` satisfies the hypothesis of the claim (accept
states and start state all occur among transition endpoints), `accept` on the
empty string returns `True`, but after `rename` the same call never returns —
renaming does change the result of `accept`. -/
theorem claim_C10_counterexample :
    ((∀ f ∈ c10A.F, f ∈ c10A.Qlist) ∧ c10A.q0 ∈ c10A.Qlist) ∧
    acceptR c10A [] true ∧ ¬ ∃ b, acceptR c10A.rename [] b := by
  refine ⟨⟨by decide, by decide⟩, ⟨3, rfl⟩, ?_⟩
  rintro ⟨b, f, hf⟩
  rw [c10_diverges f []] at hf
  exact absurd hf (by simp)

/-- C10 witness: the amended rename-invariance theorem applied to the
epsilon-free automaton `c10w` (rank constantly `0`) and the input `"a"`. -/
theorem rename_accept_invariant_witness :
    ∃ b, acceptR c10w ['a'] b ∧ acceptR c10w.rename ['a'] b := by
  refine rename_accept_invariant c10w (fun _ => 0) 0 (by decide) (by decide) ?_ ?_ ['a']
  · intro u v h
    have ht : c10w.transitions = [("s", 'a', "t")] := rfl
    rw [ht] at h
    simp [Prod.mk.injEq] at h
  · intro t _
    exact Nat.le_refl 0

end NfaPy
